import Mathlib

/-!
Verification of the balerin packaging manager (`src/balerin/packaging/manager.py`)
against its natural-language specification.

The definitions below are a shallow embedding of the Python source:
pure helper functions become Lean functions, the stateful load pass becomes
explicit state passing, the reflective package-class lookup becomes a
function `String → Option Package`, and the unbounded recursion of
`_load_components` is modelled with an explicit fuel parameter (one unit of
fuel per recursive sweep; running out of fuel models the host runtime's
recursion limit).
-/

namespace Balerin

/-- Python's `str.split('.')` on a list of characters: split on `'.'`,
keeping empty segments, never returning an empty list. -/
def splitDot : List Char → List (List Char)
  | [] => [[]]
  | c :: rest =>
    if c = '.' then [] :: splitDot rest
    else
      match splitDot rest with
      | [] => [[c]]
      | g :: gs => (c :: g) :: gs

/-- String version of `splitDot`, embedding `package_name.split('.')`. -/
def splitOnDot (s : String) : List String :=
  (splitDot s.data).map (fun cs => String.mk cs)

/-- Python's `s.startswith(pat)`. -/
def strStartsWith (s pat : String) : Bool :=
  pat.data.isPrefixOf s.data

/-- Python's `s.endswith(pat)`. -/
def strEndsWith (s pat : String) : Bool :=
  pat.data.isSuffixOf s.data

/-- Python's `pat in s` substring test on character lists. -/
def hasSub (pat : List Char) : List Char → Bool
  | [] => pat.isEmpty
  | c :: rest => pat.isPrefixOf (c :: rest) || hasSub pat rest

/-- Python's `pat in s` substring test on strings. -/
def strContainsSub (s pat : String) : Bool :=
  hasSub pat.data s.data

/-- Python's `s.replace('.py', '')`: remove every (left-to-right,
non-overlapping) occurrence of `.py`. -/
def stripDotPy : List Char → List Char
  | [] => []
  | '.' :: 'p' :: 'y' :: rest => stripDotPy rest
  | c :: rest => c :: stripDotPy rest

/-- String version of `stripDotPy`, embedding `file_name.replace('.py', '')`. -/
def replaceDotPy (s : String) : String :=
  String.mk (stripDotPy s.data)

/-- Embeds the `Package` base class of `balerin/packaging/base.py`:
the static metadata a package module may declare. -/
structure Package where
  DEPENDS : List String
  ENABLED : Bool
  COMPONENT_NAME : Option String
deriving DecidableEq

/-- The manager configuration and discovery output that the load pass reads:
`_all_packages`, `_disabled_packages`, the ignore configuration, the
`base_component` option, and the reflective `_get_package_class` lookup
(modelled as a pure function from package name to its optional `Package`
class). -/
structure Manager where
  all_packages : List String
  disabled_packages : List String
  ignored_packages : List String
  ignored_modules : List String
  ignored_detector : String → Bool → Bool
  base_component : Option String
  packages : String → Option Package

/-- The dependencies `_load_components` obtains for a package:
`package_class.DEPENDS` when a package class exists, else `[]`. -/
def Manager.depsOf (m : Manager) (package_name : String) : List String :=
  match m.packages package_name with
  | some cls => cls.DEPENDS
  | none => []

/-- Embeds `_is_equal` (wildcard segment matching): the condition parts must
not outnumber the name parts, and each condition part must be `*` or equal
to the name part at the same index. -/
def is_equal (condition full_module_or_package : String) : Bool :=
  let condition_parts := splitOnDot condition
  let full_parts := splitOnDot full_module_or_package
  if condition_parts.length > full_parts.length then false
  else (List.zip condition_parts full_parts).all
    (fun p => p.1 == "*" || p.1 == p.2)

/-- Embeds `_is_disabled_package`: a raw `startswith` or wildcard match
against any entry of the disabled list. -/
def is_disabled_package (m : Manager) (package_name : String) : Bool :=
  m.disabled_packages.any
    (fun disabled => strStartsWith package_name disabled || is_equal disabled package_name)

/-- Embeds `_is_detected_ignored`: the optional custom detector callback
(absence is modelled by a detector constantly `false`). -/
def is_detected_ignored (m : Manager) (name : String) (is_module_arg : Bool) : Bool :=
  m.ignored_detector name is_module_arg

/-- Embeds `_is_ignored_package`: a raw `startswith` or wildcard match
against any ignore entry, else the custom detector with `is_module=False`. -/
def is_ignored_package (m : Manager) (package_name : String) : Bool :=
  m.ignored_packages.any
    (fun ignored => strStartsWith package_name ignored || is_equal ignored package_name)
  || is_detected_ignored m package_name false

/-- Embeds `_is_ignored_module`: a suffix match against any module ignore
entry, else the custom detector with `is_module=True`. -/
def is_ignored_module (m : Manager) (module_name : String) : Bool :=
  m.ignored_modules.any (fun ignored => strEndsWith module_name ignored)
  || is_detected_ignored m module_name true

/-- Embeds `_contains`: the component name starts, segment-wise, with the
root name. -/
def pkgContains (root component_name : String) : Bool :=
  let parts_component := splitOnDot component_name
  let parts_root := splitOnDot root
  if parts_component.length < parts_root.length then false
  else String.intercalate "." (parts_component.take parts_root.length) == root

/-- Embeds `_get_module_name`: `'{package}.{module}'`. -/
def get_module_name (package_name module_name : String) : String :=
  package_name ++ "." ++ module_name

/-- Embeds `_merge_module_name`: qualify the last dot-segment of the
component name with the package name. -/
def merge_module_name (package_name component_name : String) : String :=
  let parts := splitOnDot component_name
  get_module_name package_name (parts.getLastD "")

/-- Embeds `_is_module`: the file name ends with `.py` and does not contain
`__init__.py` as a substring. -/
def is_module (file_name : String) : Bool :=
  strEndsWith file_name ".py" && !(strContainsSub file_name "__init__.py")

/-- Embeds the module-enumeration loop of `_find_loadable_components`
(lines 523-533): keep each listed file that `_is_module` accepts, qualify
`file_name.replace('.py', '')` with the package name, and drop names that
`_is_ignored_module` rejects, preserving enumeration order. -/
def find_loadable_modules (m : Manager) (package_name : String)
    (files : List String) : List String :=
  files.filterMap (fun file_name =>
    if is_module file_name then
      let full_module_name := get_module_name package_name (replaceDotPy file_name)
      if is_ignored_module m full_module_name then none
      else some full_module_name
    else none)

/-- Embeds `_is_dependencies_loaded`: every dependency is already in the
loaded list. -/
def is_dependencies_loaded (loaded_packages : List String) : List String → Bool
  | [] => true
  | dependency :: rest =>
    if loaded_packages.contains dependency then is_dependencies_loaded loaded_packages rest
    else false

/-- All errors the load pass can raise (`balerin/packaging/exceptions.py`).
Each constructor carries the names interpolated into the message. -/
inductive PackagingError where
  | packageIsIgnored (dep source : String)
  | packageIsDisabled (dep source : String)
  | packageNotExisted (dep source : String)
  | selfDependency (source : String)
  | subPackageDependency (root child : String)
  | circularDependency (source reverse : String)
  | componentModuleNotFound (name package_name : String)
  | invalidPackageName (package_name : String)
deriving DecidableEq

/-- Embeds `_is_parent_loaded`: compute the parent name by dropping the last
dot-segment (a single-segment package is its own parent and is always
considered loaded). The error branch is unreachable because splitting never
yields an empty list, but it is kept for faithfulness. -/
def is_parent_loaded (loaded_packages : List String) (package_name : String) :
    Except PackagingError Bool :=
  match splitOnDot package_name with
  | [] => .error (.invalidPackageName package_name)
  | [item] =>
    if item == package_name then .ok true
    else .ok (is_dependencies_loaded loaded_packages [item])
  | items =>
    let parent_package := String.intercalate "." items.dropLast
    if parent_package == package_name then .ok true
    else .ok (is_dependencies_loaded loaded_packages [parent_package])

/-- Embeds `_check_dependencies_exist`: the first declared dependency absent
from `_all_packages` raises, classified in order as ignored, disabled, or
not existing. -/
def check_dependencies_exist (m : Manager) (package_name : String) :
    List String → Option PackagingError
  | [] => none
  | item :: rest =>
    if m.all_packages.contains item then check_dependencies_exist m package_name rest
    else if is_ignored_package m item then some (.packageIsIgnored item package_name)
    else if is_disabled_package m item then some (.packageIsDisabled item package_name)
    else some (.packageNotExisted item package_name)

/-- The dependency map `_dependency_map`, as an insertion-ordered
association list. -/
abbrev DMap := List (String × List String)

/-- Python dict lookup `d.get(k)` on the association list. -/
def assocGet (d : DMap) (k : String) : Option (List String) :=
  match d with
  | [] => none
  | (k', v) :: rest => if k' == k then some v else assocGet rest k

/-- Python dict assignment `d[k] = v` on the association list: update in
place when the key exists, else append. -/
def assocSet (d : DMap) (k : String) (v : List String) : DMap :=
  match d with
  | [] => [(k, v)]
  | (k', v') :: rest => if k' == k then (k', v) :: rest else (k', v') :: assocSet rest k v

/-- Embeds the per-item loop of `_validate_dependencies`: for each declared
dependency, first the sub-package check, then the two-party circular check
against the dependency map. -/
def validateDepItems (dmap : DMap) (package_name : String) :
    List String → Option PackagingError
  | [] => none
  | item :: rest =>
    if pkgContains package_name item then some (.subPackageDependency package_name item)
    else
      match assocGet dmap item with
      | some reverse_dependencies =>
        if reverse_dependencies.contains package_name then
          some (.circularDependency package_name item)
        else validateDepItems dmap package_name rest
      | none => validateDepItems dmap package_name rest

/-- Embeds `_validate_dependencies`. It returns the dependency map as left
by the call together with the raised error, if any: the existence check runs
before the map write, and the self, sub-package and circular checks run
after it (so a failing check still leaves the entry written, as in the
source). -/
def validate_dependencies (m : Manager) (dmap : DMap) (package_name : String)
    (dependencies : List String) : DMap × Option PackagingError :=
  match check_dependencies_exist m package_name dependencies with
  | some e => (dmap, some e)
  | none =>
    let dmap' := assocSet dmap package_name dependencies
    if dependencies.length == 0 then (dmap', none)
    else if dependencies.contains package_name then (dmap', some (.selfDependency package_name))
    else (dmap', validateDepItems dmap' package_name dependencies)

/-- Observable effects of the loading protocol: the external load of the
package itself, the external load of one module, the custom per-module
callback, and the per-package hook broadcast. -/
inductive LoadEvent where
  | loadPackage (name : String)
  | loadModule (name : String)
  | customLoad (name : String)
  | packageLoadedHook (name : String)
deriving DecidableEq

/-- The events of the final module loop of `_load_component`: every module
name different from the component module is loaded and then passed to the
custom callback, in discovery order. -/
def restEvents (module_names : List String) (component_module : Option String) :
    List LoadEvent :=
  module_names.flatMap (fun name =>
    if component_module == some name then []
    else [LoadEvent.loadModule name, LoadEvent.customLoad name])

/-- Embeds `_load_component`: load the package itself, resolve the effective
component (first) module — the explicit per-package `COMPONENT_NAME` when
declared (forced), else the process-wide `base_component` (not forced) —
load it first when present in the module list, fail when a forced component
module is absent, then load the remaining modules in discovery order and
append the package to the loaded list. On success it returns the new loaded
list and the emitted events. -/
def load_component (m : Manager) (loaded_packages : List String) (package_name : String)
    (module_names : List String) (component_name : Option String) :
    Except PackagingError (List String × List LoadEvent) :=
  let force_component := component_name.isSome
  let effective_name := match component_name with
    | some c => some c
    | none => m.base_component
  let component_module := effective_name.map (fun c => merge_module_name package_name c)
  match component_module with
  | some cm =>
    if module_names.contains cm then
      .ok (loaded_packages ++ [package_name],
        LoadEvent.loadPackage package_name ::
          ([LoadEvent.loadModule cm, LoadEvent.customLoad cm]
            ++ restEvents module_names (some cm)
            ++ [LoadEvent.packageLoadedHook package_name]))
    else if force_component then .error (.componentModuleNotFound cm package_name)
    else
      .ok (loaded_packages ++ [package_name],
        LoadEvent.loadPackage package_name ::
          (restEvents module_names (some cm)
            ++ [LoadEvent.packageLoadedHook package_name]))
  | none =>
    .ok (loaded_packages ++ [package_name],
      LoadEvent.loadPackage package_name ::
        (restEvents module_names none
          ++ [LoadEvent.packageLoadedHook package_name]))

/-- The state threaded through one sweep of `_load_components`: the loaded
list, the dependency map, the emitted events, the deferred components of
this sweep, and the raised error, if any. -/
structure SweepState where
  loaded : List String
  dmap : DMap
  events : List LoadEvent
  deferred : List (String × List String)
  error : Option PackagingError
deriving DecidableEq

/-- One sweep of `_load_components`: validate each component in order, load
it when its dependencies and parent are already loaded, defer it otherwise,
and abort the sweep on the first raised error. -/
def sweep (m : Manager) : List (String × List String) → List String → DMap →
    List LoadEvent → List (String × List String) → SweepState
  | [], loaded, dmap, events, deferred => ⟨loaded, dmap, events, deferred, none⟩
  | (package_name, mods) :: rest, loaded, dmap, events, deferred =>
    match validate_dependencies m dmap package_name (m.depsOf package_name) with
    | (dmap', some e) => ⟨loaded, dmap', events, deferred, some e⟩
    | (dmap', none) =>
      if (m.depsOf package_name).length == 0
          || is_dependencies_loaded loaded (m.depsOf package_name) then
        match is_parent_loaded loaded package_name with
        | .error e => ⟨loaded, dmap', events, deferred, some e⟩
        | .ok true =>
          match load_component m loaded package_name mods
              ((m.packages package_name).bind (fun c => c.COMPONENT_NAME)) with
          | .error e => ⟨loaded, dmap', events, deferred, some e⟩
          | .ok (loaded', evs) => sweep m rest loaded' dmap' (events ++ evs) deferred
        | .ok false => sweep m rest loaded dmap' events (deferred ++ [(package_name, mods)])
      else sweep m rest loaded dmap' events (deferred ++ [(package_name, mods)])

/-- Result of a whole load pass. -/
inductive Outcome where
  | ok
  | err (e : PackagingError)
  | outOfFuel
deriving DecidableEq

/-- Result state of a whole load pass. -/
structure PassResult where
  loaded : List String
  dmap : DMap
  events : List LoadEvent
  outcome : Outcome
deriving DecidableEq

/-- Embeds the recursion of `_load_components`: run one sweep; on an error
propagate it; when components were deferred recurse on them, else finish.
`fuel` bounds the recursion depth, standing for the host recursion limit:
the source itself imposes no bound. -/
def loadComponentsAux (m : Manager) : Nat → List String → DMap → List LoadEvent →
    List (String × List String) → PassResult
  | 0, loaded, dmap, events, _ => ⟨loaded, dmap, events, .outOfFuel⟩
  | fuel+1, loaded, dmap, events, components =>
    match sweep m components loaded dmap events [] with
    | ⟨loaded', dmap', events', _, some e⟩ => ⟨loaded', dmap', events', .err e⟩
    | ⟨loaded', dmap', events', deferred', none⟩ =>
      if deferred'.length > 0 then loadComponentsAux m fuel loaded' dmap' events' deferred'
      else ⟨loaded', dmap', events', .ok⟩

/-- A full `_load_components` pass over one component table, starting from
the freshly initialized per-pass state. -/
def load_components (m : Manager) (fuel : Nat)
    (components : List (String × List String)) : PassResult :=
  loadComponentsAux m fuel [] [] [] components

/-- The names of the external module loads in a list of events, in order. -/
def moduleLoads : List LoadEvent → List String
  | [] => []
  | LoadEvent.loadModule n :: rest => n :: moduleLoads rest
  | _ :: rest => moduleLoads rest

/-- The names of the custom-callback invocations in a list of events, in
order. -/
def customLoads : List LoadEvent → List String
  | [] => []
  | LoadEvent.customLoad n :: rest => n :: customLoads rest
  | _ :: rest => customLoads rest

/-- The events of a successful `load_component` result. -/
def okEvents : Except PackagingError (List String × List LoadEvent) → List LoadEvent
  | .ok (_, evs) => evs
  | .error _ => []

/-- Dependency-order soundness of a loaded list: scanning left to right
starting from the names in `seen`, every package's dependency list is
already contained in what precedes it. `allDepsPrior m [] L = true` states
that no package occurs in `L` before all of its dependencies. -/
def allDepsPrior (m : Manager) (seen : List String) : List String → Bool
  | [] => true
  | p :: rest =>
    (m.depsOf p).all (fun v => seen.contains v) && allDepsPrior m (seen ++ [p]) rest

/-- The first declared dependency missing from `_all_packages`, the one
whose classification `_check_dependencies_exist` raises. -/
def firstMissing (m : Manager) (dependencies : List String) : Option String :=
  dependencies.find? (fun d => !(m.all_packages.contains d))

/-- Every entry of the dependency map holds exactly the dependencies the
manager derives for its key, which is what every write puts there. -/
def dmapConsistent (m : Manager) (d : DMap) : Bool :=
  d.all (fun kv => kv.2 == m.depsOf kv.1)

/-- Fixture: manager with `app.api` both in the ignore list and in the
disabled set. -/
def MIgn : Manager :=
  { all_packages := [], disabled_packages := ["app.api"], ignored_packages := ["app.api"],
    ignored_modules := [], ignored_detector := fun _ _ => false,
    base_component := none, packages := fun _ => none }

/-- Fixture: manager with no ignore configuration at all. -/
def MPlain : Manager :=
  { all_packages := [], disabled_packages := [], ignored_packages := [],
    ignored_modules := [], ignored_detector := fun _ _ => false,
    base_component := none, packages := fun _ => none }

/-- Fixture: the `app.jobs` unit declaring `scheduler` as its component
(first) module. -/
def MJobs : Manager :=
  { all_packages := ["app.jobs"], disabled_packages := [], ignored_packages := [],
    ignored_modules := [], ignored_detector := fun _ _ => false,
    base_component := none,
    packages := fun n => if n == "app.jobs" then some ⟨[], true, some "scheduler"⟩ else none }

/-- Fixture: manager with a process-wide default first module `manager`
and no package classes. -/
def MBase : Manager :=
  { all_packages := ["app.jobs"], disabled_packages := [], ignored_packages := [],
    ignored_modules := [], ignored_detector := fun _ _ => false,
    base_component := some "manager", packages := fun _ => none }

/-- Fixture: a three-package dependency cycle `a → b → c → a` that escapes
the two-party circular check. -/
def MCycle3 : Manager :=
  { all_packages := ["a", "b", "c"], disabled_packages := [], ignored_packages := [],
    ignored_modules := [], ignored_detector := fun _ _ => false,
    base_component := none,
    packages := fun n =>
      if n == "a" then some ⟨["b"], true, none⟩
      else if n == "b" then some ⟨["c"], true, none⟩
      else if n == "c" then some ⟨["a"], true, none⟩
      else none }

/-- The component table of the three-package cycle. -/
def cycle3Comps : List (String × List String) := [("a", []), ("b", []), ("c", [])]

/-- The dependency map after the first sweep over the three-package cycle. -/
def cycle3DMap : DMap := [("a", ["b"]), ("b", ["c"]), ("c", ["a"])]

/-- Fixture: mutually dependent packages `x` and `x.y` where the second is
nested inside the first. -/
def MNested : Manager :=
  { all_packages := ["x", "x.y"], disabled_packages := [], ignored_packages := [],
    ignored_modules := [], ignored_detector := fun _ _ => false,
    base_component := none,
    packages := fun n =>
      if n == "x" then some ⟨["x.y"], true, none⟩
      else if n == "x.y" then some ⟨["x"], true, none⟩
      else none }

/-- Fixture: mutually dependent sibling packages `app.a` and `app.b`. -/
def MMutual : Manager :=
  { all_packages := ["app.a", "app.b"], disabled_packages := [], ignored_packages := [],
    ignored_modules := [], ignored_detector := fun _ _ => false,
    base_component := none,
    packages := fun n =>
      if n == "app.a" then some ⟨["app.b"], true, none⟩
      else if n == "app.b" then some ⟨["app.a"], true, none⟩
      else none }

/-- Fixture: `app.a` depending on itself and on a missing package. -/
def MSelfMiss : Manager :=
  { all_packages := ["app.a"], disabled_packages := [], ignored_packages := [],
    ignored_modules := [], ignored_detector := fun _ _ => false,
    base_component := none,
    packages := fun n => if n == "app.a" then some ⟨["app.missing", "app.a"], true, none⟩ else none }

/-- Fixture: `app.a` depending only on itself. -/
def MSelfOnly : Manager :=
  { all_packages := ["app.a"], disabled_packages := [], ignored_packages := [],
    ignored_modules := [], ignored_detector := fun _ _ => false,
    base_component := none,
    packages := fun n => if n == "app.a" then some ⟨["app.a"], true, none⟩ else none }

/-- Fixture: a single dependency-free package `a`. -/
def MSingle : Manager :=
  { all_packages := ["a"], disabled_packages := [], ignored_packages := [],
    ignored_modules := [], ignored_detector := fun _ _ => false,
    base_component := none, packages := fun _ => none }

/-- Fixture: manager for the missing-dependency classification, with ignore
entry `z` and disabled entry `w`. -/
def MCheck : Manager :=
  { all_packages := ["a"], disabled_packages := ["w"], ignored_packages := ["z"],
    ignored_modules := [], ignored_detector := fun _ _ => false,
    base_component := none, packages := fun _ => none }

theorem mem_of_contains {l : List String} {a : String} (h : l.contains a = true) : a ∈ l :=
  List.elem_iff.mp h

theorem contains_of_mem {l : List String} {a : String} (h : a ∈ l) : l.contains a = true :=
  List.elem_iff.mpr h

theorem is_dependencies_loaded_iff {loaded deps : List String} :
    is_dependencies_loaded loaded deps = true ↔ ∀ d ∈ deps, d ∈ loaded := by
  induction deps with
  | nil => simp [is_dependencies_loaded]
  | cons d rest ih =>
    unfold is_dependencies_loaded
    by_cases h : loaded.contains d
    · simp [h, ih, mem_of_contains h]
    · simp [h]
      intro hmem
      exact absurd (contains_of_mem hmem) h

theorem moduleLoads_append (a b : List LoadEvent) :
    moduleLoads (a ++ b) = moduleLoads a ++ moduleLoads b := by
  induction a with
  | nil => rfl
  | cons e rest ih => cases e <;> simp [moduleLoads, ih]

theorem customLoads_append (a b : List LoadEvent) :
    customLoads (a ++ b) = customLoads a ++ customLoads b := by
  induction a with
  | nil => rfl
  | cons e rest ih => cases e <;> simp [customLoads, ih]

theorem moduleLoads_restEvents (c : String) (mods : List String) :
    moduleLoads (restEvents mods (some c)) = mods.filter (fun n => !(c == n)) := by
  induction mods with
  | nil => rfl
  | cons n rest ih =>
    by_cases h : c = n
    · subst h
      simp [restEvents, List.flatMap_cons, moduleLoads, List.filter_cons] at ih ⊢
      simpa [restEvents] using ih
    · simp [restEvents, List.flatMap_cons, moduleLoads, List.filter_cons, h] at ih ⊢
      simpa [restEvents] using ih

theorem customLoads_restEvents (c : String) (mods : List String) :
    customLoads (restEvents mods (some c)) = mods.filter (fun n => !(c == n)) := by
  induction mods with
  | nil => rfl
  | cons n rest ih =>
    by_cases h : c = n
    · subst h
      simp [restEvents, List.flatMap_cons, customLoads, List.filter_cons] at ih ⊢
      simpa [restEvents] using ih
    · simp [restEvents, List.flatMap_cons, customLoads, List.filter_cons, h] at ih ⊢
      simpa [restEvents] using ih

/-- Claim C10: a package name matching any configured ignore entry by raw
string `startswith` — with no segment-boundary check — makes
`_is_ignored_package` report it as ignored, and the disabled-subtree check
of `_is_disabled_package` applies the same raw string-prefix rule to the
disabled set. -/
theorem claim_C10_raw_prefix_rule :
    ∀ (m : Manager) (name entry : String),
      (entry ∈ m.ignored_packages → strStartsWith name entry = true →
        is_ignored_package m name = true) ∧
      (entry ∈ m.disabled_packages → strStartsWith name entry = true →
        is_disabled_package m name = true) := by
  intro m name entry
  constructor
  · intro hmem hpre
    unfold is_ignored_package
    have : m.ignored_packages.any
        (fun ignored => strStartsWith name ignored || is_equal ignored name) = true :=
      List.any_eq_true.mpr ⟨entry, hmem, by simp [hpre]⟩
    simp [this]
  · intro hmem hpre
    unfold is_disabled_package
    exact List.any_eq_true.mpr ⟨entry, hmem, by simp [hpre]⟩

/-- Witness for C10: ignore entry `app.api` also catches the distinct unit
`app.api2`, and the same entry in the disabled set catches it too. -/
theorem claim_C10_witness :
    is_ignored_package MIgn "app.api2" = true ∧ is_disabled_package MIgn "app.api2" = true :=
  ⟨(claim_C10_raw_prefix_rule MIgn "app.api2" "app.api").1 (by decide) (by decide),
   (claim_C10_raw_prefix_rule MIgn "app.api2" "app.api").2 (by decide) (by decide)⟩

/-- Counterexample for C7: the module enumeration is not
`unitName + '.' + fileNameWithoutExtension` on every loadable non-marker
file. The loadable file `x__init__.py` is not the marker file but is
excluded because the marker check is a substring test, and `y.py.py` is
recorded as `app.y` because every `.py` occurrence is removed, not just the
extension (the claim predicts `[app.x__init__, app.y.py]`). -/
theorem claim_C7_counterexample :
    find_loadable_modules MPlain "app" ["x__init__.py", "y.py.py"] = ["app.y"] ∧
    (["app.y"] : List String) ≠ ["app.x__init__", "app.y.py"] := by
  constructor
  · rfl
  · decide

/-- Claim C7 (amended): the recorded module list contains exactly the files
ending in `.py` that do not contain `__init__.py` as a substring (which
excludes the marker file and any file whose name merely contains it), each
under `unitName + '.' + (fileName with every '.py' occurrence removed)` —
equal to the file name without its extension whenever `.py` occurs nowhere
else in it — minus those matching a suffix-based ignore rule or for which
the custom ignore-detector returns true with `isModule=true`. -/
theorem claim_C7_amended_module_enumeration :
    ∀ (m : Manager) (package_name : String) (files : List String) (full : String),
      full ∈ find_loadable_modules m package_name files ↔
        ∃ f, f ∈ files ∧ is_module f = true ∧
          full = get_module_name package_name (replaceDotPy f) ∧
          is_ignored_module m full = false := by
  intro m package_name files full
  unfold find_loadable_modules
  rw [List.mem_filterMap]
  constructor
  · rintro ⟨f, hf, hsome⟩
    by_cases hm : is_module f
    · by_cases hi : is_ignored_module m (get_module_name package_name (replaceDotPy f))
      · simp [hm, hi] at hsome
      · simp [hm, hi] at hsome
        exact ⟨f, hf, hm, hsome.symm, by simpa [hsome] using hi⟩
    · simp [hm] at hsome
  · rintro ⟨f, hf, hm, hfull, hign⟩
    refine ⟨f, hf, ?_⟩
    subst hfull
    simp [hm, hign]

/-- Witness for C7 (amended): `app.y` is recorded for the file `y.py.py`. -/
theorem claim_C7_amended_witness :
    "app.y" ∈ find_loadable_modules MPlain "app" ["y.py.py"] :=
  (claim_C7_amended_module_enumeration MPlain "app" ["y.py.py"] "app.y").mpr
    ⟨"y.py.py", by decide, by decide, by decide, by decide⟩

theorem load_component_present (m : Manager) (loaded : List String) (package_name : String)
    (module_names : List String) (component_name : Option String) (c : String)
    (heff : (match component_name with
      | some c' => some c'
      | none => m.base_component) = some c)
    (hmem : merge_module_name package_name c ∈ module_names) :
    load_component m loaded package_name module_names component_name =
      .ok (loaded ++ [package_name],
        LoadEvent.loadPackage package_name ::
          ([LoadEvent.loadModule (merge_module_name package_name c),
            LoadEvent.customLoad (merge_module_name package_name c)]
            ++ restEvents module_names (some (merge_module_name package_name c))
            ++ [LoadEvent.packageLoadedHook package_name])) := by
  cases component_name with
  | some c' =>
    have hc : c' = c := by simpa using heff
    subst hc
    simp [load_component, contains_of_mem hmem, hmem]
  | none =>
    have hb : m.base_component = some c := by simpa using heff
    simp [load_component, hb, contains_of_mem hmem, hmem]

/-- Claim C5: when the effective first module (the explicit per-unit
override, else the process-wide default) is present in the unit's module
list, it is loaded first and its custom callback fires first; the remaining
modules then load, each followed by its callback, in discovery order with
the first module excluded. -/
theorem claim_C5_first_module_ordering :
    ∀ (m : Manager) (loaded : List String) (package_name : String)
      (module_names : List String) (component_name : Option String) (c : String),
      (component_name = some c ∨ (component_name = none ∧ m.base_component = some c)) →
      merge_module_name package_name c ∈ module_names →
      load_component m loaded package_name module_names component_name =
        .ok (loaded ++ [package_name],
          okEvents (load_component m loaded package_name module_names component_name)) ∧
      moduleLoads (okEvents (load_component m loaded package_name module_names component_name)) =
        merge_module_name package_name c ::
          module_names.filter (fun n => !(merge_module_name package_name c == n)) ∧
      customLoads (okEvents (load_component m loaded package_name module_names component_name)) =
        merge_module_name package_name c ::
          module_names.filter (fun n => !(merge_module_name package_name c == n)) := by
  intro m loaded package_name module_names component_name c hdisj hmem
  have h : load_component m loaded package_name module_names component_name =
      .ok (loaded ++ [package_name],
        LoadEvent.loadPackage package_name ::
          ([LoadEvent.loadModule (merge_module_name package_name c),
            LoadEvent.customLoad (merge_module_name package_name c)]
            ++ restEvents module_names (some (merge_module_name package_name c))
            ++ [LoadEvent.packageLoadedHook package_name])) := by
    rcases hdisj with h1 | ⟨h1, h2⟩
    · subst h1
      exact load_component_present m loaded package_name module_names (some c) c rfl hmem
    · subst h1
      exact load_component_present m loaded package_name module_names none c h2 hmem
  refine ⟨?_, ?_, ?_⟩
  · rw [h]; simp [okEvents]
  · rw [h]
    simp [okEvents, moduleLoads, moduleLoads_append, moduleLoads_restEvents]
  · rw [h]
    simp [okEvents, customLoads, customLoads_append, customLoads_restEvents]

/-- Witness for C5: unit `app.jobs` with first module `scheduler` and
modules discovered in the order `[worker, scheduler]` loads `scheduler`
first and invokes its callback first. -/
theorem claim_C5_witness :
    moduleLoads (okEvents (load_component MJobs [] "app.jobs"
        ["app.jobs.worker", "app.jobs.scheduler"] (some "scheduler"))) =
      ["app.jobs.scheduler", "app.jobs.worker"] ∧
    customLoads (okEvents (load_component MJobs [] "app.jobs"
        ["app.jobs.worker", "app.jobs.scheduler"] (some "scheduler"))) =
      ["app.jobs.scheduler", "app.jobs.worker"] := by
  obtain ⟨h1, h2, h3⟩ := claim_C5_first_module_ordering MJobs [] "app.jobs"
    ["app.jobs.worker", "app.jobs.scheduler"] (some "scheduler") "scheduler"
    (Or.inl rfl) (by decide)
  constructor
  · rw [h2]; decide
  · rw [h3]; decide

/-- Claim C6: an explicit first-module override whose merged name is absent
from the module list makes the unit fail with a component-module-not-found
error, while an absent process-wide default first module is skipped without
error and the unit's modules load normally. -/
theorem claim_C6_component_module_absent :
    ∀ (m : Manager) (loaded : List String) (package_name : String)
      (module_names : List String) (c : String),
      (merge_module_name package_name c ∉ module_names →
        load_component m loaded package_name module_names (some c) =
          .error (.componentModuleNotFound (merge_module_name package_name c) package_name)) ∧
      (m.base_component = some c → merge_module_name package_name c ∉ module_names →
        load_component m loaded package_name module_names none =
          .ok (loaded ++ [package_name],
            okEvents (load_component m loaded package_name module_names none)) ∧
        moduleLoads (okEvents (load_component m loaded package_name module_names none)) =
          module_names ∧
        customLoads (okEvents (load_component m loaded package_name module_names none)) =
          module_names) := by
  intro m loaded package_name module_names c
  constructor
  · intro hnmem
    have hc : module_names.contains (merge_module_name package_name c) = false := by
      cases hcc : module_names.contains (merge_module_name package_name c) with
      | false => rfl
      | true => exact absurd (mem_of_contains hcc) hnmem
    simp [load_component, hc, hnmem]
  · intro hbase hnmem
    have hc : module_names.contains (merge_module_name package_name c) = false := by
      cases hcc : module_names.contains (merge_module_name package_name c) with
      | false => rfl
      | true => exact absurd (mem_of_contains hcc) hnmem
    have hfilter : module_names.filter
        (fun n => !(merge_module_name package_name c == n)) = module_names := by
      apply List.filter_eq_self.mpr
      intro a ha
      have : merge_module_name package_name c ≠ a := fun he => hnmem (he ▸ ha)
      simp [this]
    have h : load_component m loaded package_name module_names none =
        .ok (loaded ++ [package_name],
          LoadEvent.loadPackage package_name ::
            (restEvents module_names (some (merge_module_name package_name c))
              ++ [LoadEvent.packageLoadedHook package_name])) := by
      simp [load_component, hbase, hc, hnmem]
    refine ⟨?_, ?_, ?_⟩
    · rw [h]; simp [okEvents]
    · rw [h]
      simp [okEvents, moduleLoads, moduleLoads_append, moduleLoads_restEvents, hfilter]
    · rw [h]
      simp [okEvents, customLoads, customLoads_append, customLoads_restEvents, hfilter]

/-- Witness for C6: the forced `scheduler` component module missing from
`app.jobs` raises, while the missing process-wide default `manager` is
skipped and `app.jobs.worker` loads normally. -/
theorem claim_C6_witness :
    load_component MJobs [] "app.jobs" ["app.jobs.worker"] (some "scheduler") =
      .error (.componentModuleNotFound (merge_module_name "app.jobs" "scheduler") "app.jobs") ∧
    moduleLoads (okEvents (load_component MBase [] "app.jobs" ["app.jobs.worker"] none)) =
      ["app.jobs.worker"] := by
  constructor
  · exact (claim_C6_component_module_absent MJobs [] "app.jobs"
      ["app.jobs.worker"] "scheduler").1 (by decide)
  · obtain ⟨h1, h2, h3⟩ := (claim_C6_component_module_absent MBase [] "app.jobs"
      ["app.jobs.worker"] "manager").2 rfl (by decide)
    exact h2

/-- Claim C4: when some declared dependency is absent from `_all_packages`,
validation fails on the first such name, with exactly one of three errors
checked in this order: ignored (`PackageIsIgnoredError`) when it matches the
ignore rules, else disabled (`PackageIsDisabledError`) when it is disabled
directly or via subtree match, else not existing (`PackageNotExistedError`). -/
theorem claim_C4_missing_dependency_classification :
    ∀ (m : Manager) (package_name : String) (dependencies : List String) (D : String),
      D ∈ dependencies → D ∉ m.all_packages →
      ∃ D0, firstMissing m dependencies = some D0 ∧ D0 ∉ m.all_packages ∧
        check_dependencies_exist m package_name dependencies =
          some (if is_ignored_package m D0 then .packageIsIgnored D0 package_name
            else if is_disabled_package m D0 then .packageIsDisabled D0 package_name
            else .packageNotExisted D0 package_name) ∧
        (∀ dmap, validate_dependencies m dmap package_name dependencies =
          (dmap, some (if is_ignored_package m D0 then .packageIsIgnored D0 package_name
            else if is_disabled_package m D0 then .packageIsDisabled D0 package_name
            else .packageNotExisted D0 package_name))) := by
  intro m package_name dependencies
  induction dependencies with
  | nil => intro D hD; exact absurd hD (List.not_mem_nil D)
  | cons a rest ih =>
    intro D hD hDmiss
    by_cases ham : a ∈ m.all_packages
    · have hDne : D ≠ a := fun he => hDmiss (he ▸ ham)
      have hDrest : D ∈ rest := by
        rcases List.mem_cons.mp hD with he | hr
        · exact absurd he hDne
        · exact hr
      obtain ⟨D0, h1, h2, h3, h4⟩ := ih D hDrest hDmiss
      refine ⟨D0, ?_, h2, ?_, ?_⟩
      · simpa [firstMissing, List.find?_cons, ham] using h1
      · simpa [check_dependencies_exist, ham] using h3
      · intro dmap
        have hcheck : check_dependencies_exist m package_name (a :: rest) =
            some (if is_ignored_package m D0 then .packageIsIgnored D0 package_name
              else if is_disabled_package m D0 then .packageIsDisabled D0 package_name
              else .packageNotExisted D0 package_name) := by
          simpa [check_dependencies_exist, ham] using h3
        simp [validate_dependencies, hcheck]
    · refine ⟨a, ?_, ham, ?_, ?_⟩
      · simp [firstMissing, List.find?_cons, ham]
      · by_cases h1 : is_ignored_package m a = true <;>
          by_cases h2 : is_disabled_package m a = true <;>
          simp [check_dependencies_exist, ham, h1, h2]
      · intro dmap
        have hcheck : check_dependencies_exist m package_name (a :: rest) =
            some (if is_ignored_package m a then .packageIsIgnored a package_name
              else if is_disabled_package m a then .packageIsDisabled a package_name
              else .packageNotExisted a package_name) := by
          by_cases h1 : is_ignored_package m a = true <;>
            by_cases h2 : is_disabled_package m a = true <;>
            simp [check_dependencies_exist, ham, h1, h2]
        simp [validate_dependencies, hcheck]

/-- Witness for C4: with ignore entry `z`, the missing dependency `zq` of a
unit `p` is classified as ignored, and validation raises it. -/
theorem claim_C4_witness :
    check_dependencies_exist MCheck "p" ["a", "zq"] = some (.packageIsIgnored "zq" "p") ∧
    validate_dependencies MCheck [] "p" ["a", "zq"] = ([], some (.packageIsIgnored "zq" "p")) := by
  obtain ⟨D0, h1, h2, h3, h4⟩ := claim_C4_missing_dependency_classification MCheck "p"
    ["a", "zq"] "zq" (by decide) (by decide)
  have hfm : firstMissing MCheck ["a", "zq"] = some "zq" := by decide
  have hD : D0 = "zq" := by
    rw [hfm] at h1
    exact (Option.some.inj h1).symm
  subst hD
  constructor
  · rw [h3]; decide
  · rw [h4 []]; decide

theorem allDepsPrior_snoc (m : Manager) (L : List String) (p : String) :
    ∀ seen, allDepsPrior m seen (L ++ [p]) =
      (allDepsPrior m seen L && (m.depsOf p).all (fun v => (seen ++ L).contains v)) := by
  induction L with
  | nil => intro seen; simp [allDepsPrior]
  | cons q L' ih =>
    intro seen
    simp only [List.cons_append, allDepsPrior, List.append_eq]
    rw [ih (seen ++ [q]), List.append_assoc]
    simp [Bool.and_assoc]

theorem allDepsPrior_extend (m : Manager) (L : List String) (p : String)
    (h1 : allDepsPrior m [] L = true) (h2 : ∀ v ∈ m.depsOf p, v ∈ L) :
    allDepsPrior m [] (L ++ [p]) = true := by
  rw [allDepsPrior_snoc m L p [], Bool.and_eq_true]
  refine ⟨h1, List.all_eq_true.mpr ?_⟩
  intro v hv
  exact contains_of_mem (by simpa using h2 v hv)

theorem mutual_pair_never_loaded (m : Manager) {A B : String} {L : List String}
    (hBA : B ∈ m.depsOf A) (hAB : A ∈ m.depsOf B)
    (hL : allDepsPrior m [] L = true) : A ∉ L ∧ B ∉ L := by
  induction L using List.reverseRecOn with
  | nil => simp
  | append_singleton L' p ih =>
    rw [allDepsPrior_snoc m L' p [], Bool.and_eq_true] at hL
    obtain ⟨h1, h2⟩ := hL
    have hdep : ∀ v ∈ m.depsOf p, v ∈ L' := by
      intro v hv
      have := List.all_eq_true.mp h2 v hv
      simpa using mem_of_contains this
    obtain ⟨ihA, ihB⟩ := ih h1
    constructor
    · intro hmem
      rcases List.mem_append.mp hmem with h | h
      · exact ihA h
      · have hp : A = p := by simpa using h
        subst hp
        exact ihB (hdep _ hBA)
    · intro hmem
      rcases List.mem_append.mp hmem with h | h
      · exact ihB h
      · have hp : B = p := by simpa using h
        subst hp
        exact ihA (hdep _ hAB)

theorem self_dep_never_loaded (m : Manager) {P : String} {L : List String}
    (hself : P ∈ m.depsOf P) (hL : allDepsPrior m [] L = true) : P ∉ L := by
  induction L using List.reverseRecOn with
  | nil => simp
  | append_singleton L' p ih =>
    rw [allDepsPrior_snoc m L' p [], Bool.and_eq_true] at hL
    obtain ⟨h1, h2⟩ := hL
    have hdep : ∀ v ∈ m.depsOf p, v ∈ L' := by
      intro v hv
      have := List.all_eq_true.mp h2 v hv
      simpa using mem_of_contains this
    intro hmem
    rcases List.mem_append.mp hmem with h | h
    · exact ih h1 h
    · have hp : P = p := by simpa using h
      subst hp
      exact ih h1 (hdep _ hself)

theorem load_component_ok_loaded {m : Manager} {loaded : List String}
    {package_name : String} {module_names : List String} {component_name : Option String}
    {l' : List String} {evs : List LoadEvent}
    (h : load_component m loaded package_name module_names component_name = .ok (l', evs)) :
    l' = loaded ++ [package_name] := by
  simp only [load_component] at h
  split at h
  · split at h
    · injection h with h'
      exact (congrArg Prod.fst h').symm
    · split at h
      · exact absurd h (by simp)
      · injection h with h'
        exact (congrArg Prod.fst h').symm
  · injection h with h'
    exact (congrArg Prod.fst h').symm

theorem sweep_allDepsPrior (m : Manager) :
    ∀ (comps : List (String × List String)) (loaded : List String) (dmap : DMap)
      (events : List LoadEvent) (deferred : List (String × List String)),
      allDepsPrior m [] loaded = true →
      allDepsPrior m [] (sweep m comps loaded dmap events deferred).loaded = true := by
  intro comps
  induction comps with
  | nil =>
    intro loaded dmap events deferred hgood
    simpa [sweep] using hgood
  | cons hd tl ih =>
    obtain ⟨pkg, mods⟩ := hd
    intro loaded dmap events deferred hgood
    rw [sweep]
    cases hv : validate_dependencies m dmap pkg (m.depsOf pkg) with
    | mk dmap' oerr =>
      cases oerr with
      | some e => simpa using hgood
      | none =>
        simp only
        by_cases hguard : ((m.depsOf pkg).length == 0
            || is_dependencies_loaded loaded (m.depsOf pkg)) = true
        · rw [if_pos hguard]
          cases hp : is_parent_loaded loaded pkg with
          | error e => simpa using hgood
          | ok b =>
            cases b with
            | false => exact ih _ _ _ _ hgood
            | true =>
              cases hlc : load_component m loaded pkg mods
                  ((m.packages pkg).bind (fun c => c.COMPONENT_NAME)) with
              | error e => simpa using hgood
              | ok pr =>
                obtain ⟨loaded', evs⟩ := pr
                have hl' : loaded' = loaded ++ [pkg] := load_component_ok_loaded hlc
                apply ih
                subst hl'
                apply allDepsPrior_extend m loaded pkg hgood
                intro v hv'
                rw [Bool.or_eq_true] at hguard
                rcases hguard with hz | hall
                · have : (m.depsOf pkg).length = 0 := by simpa using hz
                  rw [List.length_eq_zero.mp this] at hv'
                  exact absurd hv' (List.not_mem_nil v)
                · exact is_dependencies_loaded_iff.mp hall v hv'
        · rw [if_neg hguard]
          exact ih _ _ _ _ hgood

theorem loadComponentsAux_allDepsPrior (m : Manager) :
    ∀ (fuel : Nat) (comps : List (String × List String)) (loaded : List String)
      (dmap : DMap) (events : List LoadEvent),
      allDepsPrior m [] loaded = true →
      allDepsPrior m [] (loadComponentsAux m fuel loaded dmap events comps).loaded = true := by
  intro fuel
  induction fuel with
  | zero =>
    intro comps loaded dmap events hgood
    simpa [loadComponentsAux] using hgood
  | succ f ih =>
    intro comps loaded dmap events hgood
    rw [loadComponentsAux]
    have hs := sweep_allDepsPrior m comps loaded dmap events [] hgood
    cases hsw : sweep m comps loaded dmap events [] with
    | mk loaded' dmap' events' deferred' oerr =>
      rw [hsw] at hs
      cases oerr with
      | some e => simpa using hs
      | none =>
        simp only
        by_cases hdef : deferred'.length > 0
        · rw [if_pos hdef]
          exact ih _ _ _ _ hs
        · rw [if_neg hdef]
          simpa using hs

/-- Claim C1: in a load pass over any component table, no package is ever
appended to the loaded list while some name in its validated dependency
list (its package class `DEPENDS`, the value recorded in the dependency
map) is absent from the loaded list; equivalently every dependency of a
loaded package occurs strictly before it in `_loaded_packages`. -/
theorem claim_C1_dependencies_loaded_first :
    ∀ (m : Manager) (fuel : Nat) (components : List (String × List String)),
      allDepsPrior m [] (load_components m fuel components).loaded = true :=
  fun m fuel components =>
    loadComponentsAux_allDepsPrior m fuel components [] [] [] rfl

theorem cycle3_first_sweep (f : Nat) :
    loadComponentsAux MCycle3 (f + 1) [] [] [] cycle3Comps =
      loadComponentsAux MCycle3 f [] cycle3DMap [] cycle3Comps := rfl

theorem cycle3_fixpoint (f : Nat) :
    loadComponentsAux MCycle3 (f + 1) [] cycle3DMap [] cycle3Comps =
      loadComponentsAux MCycle3 f [] cycle3DMap [] cycle3Comps := rfl

theorem cycle3_aux_out_of_fuel (f : Nat) :
    (loadComponentsAux MCycle3 f [] cycle3DMap [] cycle3Comps).outcome =
      Outcome.outOfFuel := by
  induction f with
  | zero => rfl
  | succ f ih => rw [cycle3_fixpoint f]; exact ih

/-- Claim C2 (refuted by the code, as the spec's design notes themselves
concede): on the three-package cycle `a → b → c → a`, which passes the
two-party validation in every sweep, each sweep defers all three packages
and loads zero units, and `_load_components` recurses on an unchanged
deferred set: for every recursion budget the pass runs out of fuel instead
of surfacing a terminal failure of its own. -/
theorem claim_C2_cycle_exhausts_any_fuel :
    ∀ (fuel : Nat),
      (load_components MCycle3 fuel cycle3Comps).outcome = Outcome.outOfFuel := by
  intro fuel
  cases fuel with
  | zero => rfl
  | succ f =>
    rw [load_components, cycle3_first_sweep f]
    exact cycle3_aux_out_of_fuel f

theorem assocGet_assocSet (d : DMap) (k : String) (v : List String) (k' : String) :
    assocGet (assocSet d k v) k' = if k = k' then some v else assocGet d k' := by
  induction d with
  | nil => by_cases h : k = k' <;> simp [assocSet, assocGet, h]
  | cons hd rest ih =>
    obtain ⟨a, b⟩ := hd
    by_cases hak : a = k
    · subst hak
      by_cases hk' : a = k' <;> simp [assocSet, assocGet, hk']
    · by_cases hk' : a = k'
      · subst hk'
        have : ¬ (k = a) := fun h => hak h.symm
        simp [assocSet, assocGet, hak, this]
      · simp [assocSet, assocGet, hak, hk', ih]

theorem check_dependencies_exist_none (m : Manager) (package_name : String) :
    ∀ dependencies, (∀ d ∈ dependencies, d ∈ m.all_packages) →
      check_dependencies_exist m package_name dependencies = none := by
  intro dependencies
  induction dependencies with
  | nil => intro; rfl
  | cons a rest ih =>
    intro hall
    have ha : a ∈ m.all_packages := hall a (List.mem_cons_self a rest)
    simp only [check_dependencies_exist, contains_of_mem ha, if_pos]
    exact ih (fun d hd => hall d (List.mem_cons_of_mem a hd))

theorem validate_of_check_some {m : Manager} {dmap : DMap} {package_name : String}
    {dependencies : List String} {e : PackagingError}
    (hc : check_dependencies_exist m package_name dependencies = some e) :
    validate_dependencies m dmap package_name dependencies = (dmap, some e) := by
  simp [validate_dependencies, hc]

theorem validate_ok_dmap {m : Manager} {dmap d1 : DMap} {package_name : String}
    {dependencies : List String}
    (h : validate_dependencies m dmap package_name dependencies = (d1, none)) :
    d1 = assocSet dmap package_name dependencies := by
  unfold validate_dependencies at h
  cases hc : check_dependencies_exist m package_name dependencies with
  | some e =>
    rw [hc] at h
    exact absurd (congrArg Prod.snd h) (by simp)
  | none =>
    rw [hc] at h
    simp only at h
    split at h
    · exact (congrArg Prod.fst h).symm
    · split at h
      · exact absurd (congrArg Prod.snd h) (by simp)
      · exact (congrArg Prod.fst h).symm

theorem validate_self_dep_errors (m : Manager) (dmap : DMap) (P : String)
    (hself : P ∈ m.depsOf P) :
    ∃ e, (validate_dependencies m dmap P (m.depsOf P)).2 = some e := by
  unfold validate_dependencies
  cases hc : check_dependencies_exist m P (m.depsOf P) with
  | some e => exact ⟨e, rfl⟩
  | none =>
    refine ⟨.selfDependency P, ?_⟩
    have hlen : ((m.depsOf P).length == 0) = false := by
      cases h : m.depsOf P with
      | nil => rw [h] at hself; exact absurd hself (List.not_mem_nil P)
      | cons x xs => simp
    simp [hlen, contains_of_mem hself, hself]

theorem validate_self_dep_exact (m : Manager) (dmap : DMap) (P : String)
    (hself : P ∈ m.depsOf P) (hall : ∀ d ∈ m.depsOf P, d ∈ m.all_packages) :
    (validate_dependencies m dmap P (m.depsOf P)).2 = some (.selfDependency P) := by
  unfold validate_dependencies
  rw [check_dependencies_exist_none m P (m.depsOf P) hall]
  have hlen : ((m.depsOf P).length == 0) = false := by
    cases h : m.depsOf P with
    | nil => rw [h] at hself; exact absurd hself (List.not_mem_nil P)
    | cons x xs => simp
  simp [hlen, contains_of_mem hself, hself]

theorem validateDepItems_mutual {dmap : DMap} {A B : String} {ds : List String}
    (hget : assocGet dmap A = some ds) (hBds : B ∈ ds) :
    ∀ items, A ∈ items → ∃ e, validateDepItems dmap B items = some e := by
  intro items
  induction items with
  | nil => intro h; exact absurd h (List.not_mem_nil A)
  | cons item rest ih =>
    intro hmem
    unfold validateDepItems
    by_cases hsub : pkgContains B item = true
    · exact ⟨.subPackageDependency B item, by simp [hsub]⟩
    · cases hg : assocGet dmap item with
      | some rev =>
        by_cases hrev : rev.contains B = true
        · exact ⟨.circularDependency B item, by simp [hsub, hg, mem_of_contains hrev]⟩
        · have hnB : B ∉ rev := fun h => hrev (contains_of_mem h)
          have hiA : item ≠ A := by
            intro he
            subst he
            rw [hget] at hg
            have hdr : ds = rev := by injection hg
            exact hnB (hdr ▸ hBds)
          have hA : A ∈ rest := by
            rcases List.mem_cons.mp hmem with h | h
            · exact absurd h.symm hiA
            · exact h
          obtain ⟨e, he⟩ := ih hA
          exact ⟨e, by simp [hsub, hg, hnB, he]⟩
      | none =>
        have hiA : item ≠ A := by
          intro he
          subst he
          rw [hget] at hg
          exact absurd hg (by simp)
        have hA : A ∈ rest := by
          rcases List.mem_cons.mp hmem with h | h
          · exact absurd h.symm hiA
          · exact h
        obtain ⟨e, he⟩ := ih hA
        exact ⟨e, by simp [hsub, hg, he]⟩

theorem validate_mutual_errors (m : Manager) (dmap : DMap) {A B : String} {ds : List String}
    (hne : A ≠ B) (hget : assocGet dmap A = some ds) (hBds : B ∈ ds)
    (hAB : A ∈ m.depsOf B) :
    ∃ e, (validate_dependencies m dmap B (m.depsOf B)).2 = some e := by
  unfold validate_dependencies
  cases hc : check_dependencies_exist m B (m.depsOf B) with
  | some e => exact ⟨e, rfl⟩
  | none =>
    have hlen : ((m.depsOf B).length == 0) = false := by
      cases h : m.depsOf B with
      | nil => rw [h] at hAB; exact absurd hAB (List.not_mem_nil A)
      | cons x xs => simp
    by_cases hself : (m.depsOf B).contains B = true
    · exact ⟨.selfDependency B, by simp [hlen, hself, mem_of_contains hself]⟩
    · have hget' : assocGet (assocSet dmap B (m.depsOf B)) A = some ds := by
        rw [assocGet_assocSet]
        rw [if_neg (fun h => hne h.symm)]
        exact hget
      obtain ⟨e, he⟩ := validateDepItems_mutual hget' hBds (m.depsOf B) hAB
      refine ⟨e, ?_⟩
      have hselfm : B ∉ m.depsOf B := fun h => hself (contains_of_mem h)
      simp [hlen, hselfm, he]

theorem key_mem_cons {A p : String} {mods : List String} {tl : List (String × List String)}
    (h : A ∈ ((p, mods) :: tl).map Prod.fst) : A = p ∨ A ∈ tl.map Prod.fst := by
  rcases (by simpa using h : A = p ∨ ∃ x, (A, x) ∈ tl) with h1 | ⟨x, hx⟩
  · exact Or.inl h1
  · exact Or.inr (List.mem_map.mpr ⟨(A, x), hx, rfl⟩)

theorem sweep_mutual_error (m : Manager) {A B : String}
    (hne : A ≠ B) (hBA : B ∈ m.depsOf A) (hAB : A ∈ m.depsOf B) :
    ∀ (comps : List (String × List String)) (loaded : List String) (dmap : DMap)
      (events : List LoadEvent) (deferred : List (String × List String)),
      ((A ∈ comps.map Prod.fst ∧ B ∈ comps.map Prod.fst) ∨
       (B ∈ comps.map Prod.fst ∧ assocGet dmap A = some (m.depsOf A)) ∨
       (A ∈ comps.map Prod.fst ∧ assocGet dmap B = some (m.depsOf B))) →
      (sweep m comps loaded dmap events deferred).error.isSome = true := by
  intro comps
  induction comps with
  | nil =>
    intro loaded dmap events deferred hdisj
    exact absurd hdisj (by simp)
  | cons hd tl ih =>
    obtain ⟨p, mods⟩ := hd
    intro loaded dmap events deferred hdisj
    rw [sweep]
    cases hv : validate_dependencies m dmap p (m.depsOf p) with
    | mk dmap1 oerr =>
      cases oerr with
      | some e => simp
      | none =>
        have hd1 : dmap1 = assocSet dmap p (m.depsOf p) := validate_ok_dmap hv
        have hstep : ((A ∈ tl.map Prod.fst ∧ B ∈ tl.map Prod.fst) ∨
            (B ∈ tl.map Prod.fst ∧ assocGet dmap1 A = some (m.depsOf A)) ∨
            (A ∈ tl.map Prod.fst ∧ assocGet dmap1 B = some (m.depsOf B))) := by
          rcases hdisj with ⟨hA, hB⟩ | ⟨hB, hget⟩ | ⟨hA, hget⟩
          · rcases key_mem_cons hA with hpA | hA'
            · right; left
              refine ⟨?_, ?_⟩
              · have hBp : B ≠ p := fun h => hne (hpA.trans h.symm)
                rcases key_mem_cons hB with hpB | hB'
                · exact absurd hpB hBp
                · exact hB'
              · rw [hd1, assocGet_assocSet, ← hpA, if_pos rfl]
            · rcases key_mem_cons hB with hpB | hB'
              · right; right
                refine ⟨hA', ?_⟩
                rw [hd1, assocGet_assocSet, ← hpB, if_pos rfl]
              · left; exact ⟨hA', hB'⟩
          · have hpB : p ≠ B := by
              intro h
              subst h
              obtain ⟨e, he⟩ := validate_mutual_errors m dmap hne hget hBA hAB
              rw [hv] at he
              exact absurd he (by simp)
            right; left
            refine ⟨?_, ?_⟩
            · rcases key_mem_cons hB with h | h
              · exact absurd h.symm hpB
              · exact h
            · rw [hd1, assocGet_assocSet]
              by_cases hpA : p = A
              · rw [if_pos hpA, hpA]
              · rw [if_neg hpA]; exact hget
          · have hpA : p ≠ A := by
              intro h
              subst h
              obtain ⟨e, he⟩ := validate_mutual_errors m dmap (fun h' => hne h'.symm)
                hget hAB hBA
              rw [hv] at he
              exact absurd he (by simp)
            right; right
            refine ⟨?_, ?_⟩
            · rcases key_mem_cons hA with h | h
              · exact absurd h.symm hpA
              · exact h
            · rw [hd1, assocGet_assocSet]
              by_cases hpB : p = B
              · rw [if_pos hpB, hpB]
              · rw [if_neg hpB]; exact hget
        simp only
        by_cases hguard : ((m.depsOf p).length == 0
            || is_dependencies_loaded loaded (m.depsOf p)) = true
        · rw [if_pos hguard]
          cases hp : is_parent_loaded loaded p with
          | error e => simp
          | ok b =>
            cases b with
            | false => exact ih _ _ _ _ hstep
            | true =>
              cases hlc : load_component m loaded p mods
                  ((m.packages p).bind (fun c => c.COMPONENT_NAME)) with
              | error e => simp
              | ok pr =>
                obtain ⟨loaded', evs⟩ := pr
                exact ih _ _ _ _ hstep
        · rw [if_neg hguard]
          exact ih _ _ _ _ hstep

theorem sweep_self_dep_error (m : Manager) {P : String} (hself : P ∈ m.depsOf P) :
    ∀ (comps : List (String × List String)) (loaded : List String) (dmap : DMap)
      (events : List LoadEvent) (deferred : List (String × List String)),
      P ∈ comps.map Prod.fst →
      (sweep m comps loaded dmap events deferred).error.isSome = true := by
  intro comps
  induction comps with
  | nil =>
    intro loaded dmap events deferred hmem
    exact absurd hmem (by simp)
  | cons hd tl ih =>
    obtain ⟨p, mods⟩ := hd
    intro loaded dmap events deferred hmem
    rw [sweep]
    cases hv : validate_dependencies m dmap p (m.depsOf p) with
    | mk dmap1 oerr =>
      cases oerr with
      | some e => simp
      | none =>
        have hpP : p ≠ P := by
          intro h
          subst h
          obtain ⟨e, he⟩ := validate_self_dep_errors m dmap p hself
          rw [hv] at he
          exact absurd he (by simp)
        have hP : P ∈ tl.map Prod.fst := by
          rcases key_mem_cons hmem with h | h
          · exact absurd h.symm hpP
          · exact h
        simp only
        by_cases hguard : ((m.depsOf p).length == 0
            || is_dependencies_loaded loaded (m.depsOf p)) = true
        · rw [if_pos hguard]
          cases hp : is_parent_loaded loaded p with
          | error e => simp
          | ok b =>
            cases b with
            | false => exact ih _ _ _ _ hP
            | true =>
              cases hlc : load_component m loaded p mods
                  ((m.packages p).bind (fun c => c.COMPONENT_NAME)) with
              | error e => simp
              | ok pr =>
                obtain ⟨loaded', evs⟩ := pr
                exact ih _ _ _ _ hP
        · rw [if_neg hguard]
          exact ih _ _ _ _ hP

theorem restEvents_loadModule_mem {mods : List String} {cm : Option String} {n : String}
    (h : LoadEvent.loadModule n ∈ restEvents mods cm) : n ∈ mods := by
  induction mods with
  | nil => simp [restEvents] at h
  | cons a rest ih =>
    simp only [restEvents, List.flatMap_cons] at h
    rcases List.mem_append.mp h with h1 | h2
    · by_cases hc : (cm == some a) = true
      · rw [if_pos hc] at h1
        exact absurd h1 (List.not_mem_nil _)
      · rw [if_neg hc] at h1
        have : n = a := by
          rcases List.mem_cons.mp h1 with he | he
          · injection he
          · rcases List.mem_cons.mp he with he' | he'
            · exact absurd he' (by simp)
            · exact absurd he' (List.not_mem_nil _)
        exact this ▸ List.mem_cons_self a rest
    · exact List.mem_cons_of_mem a (ih (by simpa [restEvents] using h2))

theorem load_component_ok_module_events {m : Manager} {loaded : List String}
    {package_name : String} {mods : List String} {cn : Option String}
    {l' : List String} {evs : List LoadEvent}
    (h : load_component m loaded package_name mods cn = .ok (l', evs)) :
    ∀ n, LoadEvent.loadModule n ∈ evs → n ∈ mods := by
  intro n hn
  have main : ∀ (cm : Option String) (tail : List LoadEvent),
      evs = LoadEvent.loadPackage package_name :: tail →
      (∀ ev ∈ tail, ev = LoadEvent.packageLoadedHook package_name ∨
        ev ∈ restEvents mods cm ∨
        (∃ c, cm = some c ∧ c ∈ mods ∧
          (ev = LoadEvent.loadModule c ∨ ev = LoadEvent.customLoad c))) →
      n ∈ mods := by
    intro cm tail hevs htail
    rw [hevs] at hn
    rcases List.mem_cons.mp hn with he | he
    · exact absurd he (by simp)
    · rcases htail _ he with h1 | h1 | ⟨c, _, hcmem, h1 | h1⟩
      · exact absurd h1 (by simp)
      · exact restEvents_loadModule_mem h1
      · have : n = c := by injection h1
        exact this ▸ hcmem
      · exact absurd h1 (by simp)
  cases cn with
  | some c =>
    by_cases hc : mods.contains (merge_module_name package_name c) = true
    · have hev : evs = LoadEvent.loadPackage package_name ::
          ([LoadEvent.loadModule (merge_module_name package_name c),
            LoadEvent.customLoad (merge_module_name package_name c)]
            ++ restEvents mods (some (merge_module_name package_name c))
            ++ [LoadEvent.packageLoadedHook package_name]) := by
        have := load_component_present m loaded package_name mods (some c) c rfl
          (mem_of_contains hc)
        rw [this] at h
        injection h with h'
        exact (congrArg Prod.snd h').symm
      refine main (some (merge_module_name package_name c)) _ hev ?_
      intro ev hev'
      rcases List.mem_append.mp hev' with h1 | h1
      · rcases List.mem_append.mp h1 with h2 | h2
        · rcases List.mem_cons.mp h2 with h3 | h3
          · exact Or.inr (Or.inr ⟨_, rfl, mem_of_contains hc, Or.inl h3⟩)
          · rcases List.mem_cons.mp h3 with h4 | h4
            · exact Or.inr (Or.inr ⟨_, rfl, mem_of_contains hc, Or.inr h4⟩)
            · exact absurd h4 (List.not_mem_nil _)
        · exact Or.inr (Or.inl h2)
      · rcases List.mem_cons.mp h1 with h2 | h2
        · exact Or.inl h2
        · exact absurd h2 (List.not_mem_nil _)
    · have hnm : merge_module_name package_name c ∉ mods :=
        fun hmem => hc (contains_of_mem hmem)
      have hlc : load_component m loaded package_name mods (some c) =
          .error (.componentModuleNotFound (merge_module_name package_name c) package_name) := by
        simp [load_component, hc, hnm]
      rw [hlc] at h
      exact absurd h (by simp)
  | none =>
    cases hb : m.base_component with
    | none =>
      have hev : evs = LoadEvent.loadPackage package_name ::
          (restEvents mods none ++ [LoadEvent.packageLoadedHook package_name]) := by
        simp only [load_component, hb] at h
        injection h with h'
        exact (congrArg Prod.snd h').symm
      refine main none _ hev ?_
      intro ev hev'
      rcases List.mem_append.mp hev' with h1 | h1
      · exact Or.inr (Or.inl h1)
      · rcases List.mem_cons.mp h1 with h2 | h2
        · exact Or.inl h2
        · exact absurd h2 (List.not_mem_nil _)
    | some b =>
      by_cases hc : mods.contains (merge_module_name package_name b) = true
      · have hev : evs = LoadEvent.loadPackage package_name ::
            ([LoadEvent.loadModule (merge_module_name package_name b),
              LoadEvent.customLoad (merge_module_name package_name b)]
              ++ restEvents mods (some (merge_module_name package_name b))
              ++ [LoadEvent.packageLoadedHook package_name]) := by
          have := load_component_present m loaded package_name mods none b hb
            (mem_of_contains hc)
          rw [this] at h
          injection h with h'
          exact (congrArg Prod.snd h').symm
        refine main (some (merge_module_name package_name b)) _ hev ?_
        intro ev hev'
        rcases List.mem_append.mp hev' with h1 | h1
        · rcases List.mem_append.mp h1 with h2 | h2
          · rcases List.mem_cons.mp h2 with h3 | h3
            · exact Or.inr (Or.inr ⟨_, rfl, mem_of_contains hc, Or.inl h3⟩)
            · rcases List.mem_cons.mp h3 with h4 | h4
              · exact Or.inr (Or.inr ⟨_, rfl, mem_of_contains hc, Or.inr h4⟩)
              · exact absurd h4 (List.not_mem_nil _)
          · exact Or.inr (Or.inl h2)
        · rcases List.mem_cons.mp h1 with h2 | h2
          · exact Or.inl h2
          · exact absurd h2 (List.not_mem_nil _)
      · have hnm : merge_module_name package_name b ∉ mods :=
          fun hmem => hc (contains_of_mem hmem)
        have hev : evs = LoadEvent.loadPackage package_name ::
            (restEvents mods (some (merge_module_name package_name b))
              ++ [LoadEvent.packageLoadedHook package_name]) := by
          have hlc : load_component m loaded package_name mods none =
              .ok (loaded ++ [package_name],
                LoadEvent.loadPackage package_name ::
                  (restEvents mods (some (merge_module_name package_name b))
                    ++ [LoadEvent.packageLoadedHook package_name])) := by
            simp [load_component, hb, hc, hnm]
          rw [hlc] at h
          injection h with h'
          exact (congrArg Prod.snd h').symm
        refine main (some (merge_module_name package_name b)) _ hev ?_
        intro ev hev'
        rcases List.mem_append.mp hev' with h1 | h1
        · exact Or.inr (Or.inl h1)
        · rcases List.mem_cons.mp h1 with h2 | h2
          · exact Or.inl h2
          · exact absurd h2 (List.not_mem_nil _)

theorem sweep_no_module_events (m : Manager) {P : String}
    (hval : ∀ dmap, (validate_dependencies m dmap P (m.depsOf P)).2 ≠ none) :
    ∀ (comps : List (String × List String)) (loaded : List String) (dmap : DMap)
      (events : List LoadEvent) (deferred : List (String × List String))
      (bad : List String),
      (∀ n ∈ bad, LoadEvent.loadModule n ∉ events) →
      (∀ q ∈ comps, q.1 = P ∨ ∀ n ∈ bad, n ∉ q.2) →
      ∀ n ∈ bad, LoadEvent.loadModule n ∉ (sweep m comps loaded dmap events deferred).events := by
  intro comps
  induction comps with
  | nil =>
    intro loaded dmap events deferred bad hev hq n hn
    simpa [sweep] using hev n hn
  | cons hd tl ih =>
    obtain ⟨p, mods⟩ := hd
    intro loaded dmap events deferred bad hev hq n hn
    rw [sweep]
    cases hv : validate_dependencies m dmap p (m.depsOf p) with
    | mk dmap1 oerr =>
      cases oerr with
      | some e => simpa using hev n hn
      | none =>
        have hpP : p ≠ P := by
          intro h
          subst h
          exact hval dmap (by rw [hv])
        have hdisj : ∀ n' ∈ bad, n' ∉ mods := by
          rcases hq (p, mods) (List.mem_cons_self _ _) with h | h
          · exact absurd h hpP
          · exact h
        have hqtl : ∀ q ∈ tl, q.1 = P ∨ ∀ n' ∈ bad, n' ∉ q.2 :=
          fun q hq' => hq q (List.mem_cons_of_mem _ hq')
        simp only
        by_cases hguard : ((m.depsOf p).length == 0
            || is_dependencies_loaded loaded (m.depsOf p)) = true
        · rw [if_pos hguard]
          cases hp : is_parent_loaded loaded p with
          | error e => simpa using hev n hn
          | ok b =>
            cases b with
            | false => exact ih _ _ _ _ _ hev hqtl n hn
            | true =>
              cases hlc : load_component m loaded p mods
                  ((m.packages p).bind (fun c => c.COMPONENT_NAME)) with
              | error e => simpa using hev n hn
              | ok pr =>
                obtain ⟨loaded', evs⟩ := pr
                have hev' : ∀ n' ∈ bad, LoadEvent.loadModule n' ∉ events ++ evs := by
                  intro n' hn' hmem
                  rcases List.mem_append.mp hmem with h1 | h1
                  · exact hev n' hn' h1
                  · exact hdisj n' hn' (load_component_ok_module_events hlc n' h1)
                exact ih _ _ _ _ _ hev' hqtl n hn
        · rw [if_neg hguard]
          exact ih _ _ _ _ _ hev hqtl n hn

theorem loadComponentsAux_err_of_sweep {m : Manager} {f : Nat}
    {comps : List (String × List String)} {loaded : List String} {dmap : DMap}
    {events : List LoadEvent}
    (hs : (sweep m comps loaded dmap events []).error.isSome = true) :
    ∃ e, (loadComponentsAux m (f + 1) loaded dmap events comps).outcome = Outcome.err e ∧
      (loadComponentsAux m (f + 1) loaded dmap events comps).loaded =
        (sweep m comps loaded dmap events []).loaded ∧
      (loadComponentsAux m (f + 1) loaded dmap events comps).events =
        (sweep m comps loaded dmap events []).events := by
  rw [loadComponentsAux]
  cases hsw : sweep m comps loaded dmap events [] with
  | mk l' d' ev' df' oerr =>
    rw [hsw] at hs
    cases oerr with
    | none => simp at hs
    | some e => exact ⟨e, rfl, rfl, rfl⟩

/-- Counterexample for C3: for the mutually dependent units `x` and `x.y`
(the second nested in the first), the pass raises a sub-package-dependency
error, not a circular-dependency error, because the sub-package check runs
before the two-party circular check on each declared dependency. -/
theorem claim_C3_counterexample :
    (load_components MNested 5 [("x", []), ("x.y", [])]).outcome =
      Outcome.err (.subPackageDependency "x" "x.y") ∧
    (load_components MNested 5 [("x", []), ("x.y", [])]).loaded = ([] : List String) ∧
    Outcome.err (PackagingError.subPackageDependency "x" "x.y") ≠
      Outcome.err (.circularDependency "x" "x.y") ∧
    Outcome.err (PackagingError.subPackageDependency "x" "x.y") ≠
      Outcome.err (.circularDependency "x.y" "x") := by
  refine ⟨rfl, rfl, by decide, by decide⟩

/-- Claim C3 (amended): for any two distinct discovered units A and B in the
component table that each list the other in their depends, the load pass
fails — it raises some validation error during the first sweep (a
circular-dependency error unless another validation failure preempts it,
such as a sub-unit-dependency error when one unit is nested inside the
other) — and neither A nor B is ever appended to the loaded list. -/
theorem claim_C3_mutual_dependency_amended :
    ∀ (m : Manager) (fuel : Nat) (components : List (String × List String))
      (A B : String),
      A ≠ B → A ∈ components.map Prod.fst → B ∈ components.map Prod.fst →
      B ∈ m.depsOf A → A ∈ m.depsOf B → 1 ≤ fuel →
      (∃ e, (load_components m fuel components).outcome = Outcome.err e) ∧
      A ∉ (load_components m fuel components).loaded ∧
      B ∉ (load_components m fuel components).loaded := by
  intro m fuel comps A B hne hA hB hBA hAB hfuel
  simp only [load_components]
  have hprior := loadComponentsAux_allDepsPrior m fuel comps [] [] [] rfl
  have hnotmem := mutual_pair_never_loaded m hBA hAB hprior
  refine ⟨?_, hnotmem.1, hnotmem.2⟩
  obtain ⟨f, rfl⟩ : ∃ f, fuel = f + 1 := ⟨fuel - 1, by omega⟩
  have hs := sweep_mutual_error m hne hBA hAB comps [] [] [] [] (Or.inl ⟨hA, hB⟩)
  obtain ⟨e, he, _, _⟩ := loadComponentsAux_err_of_sweep (f := f) hs
  exact ⟨e, he⟩

/-- Witness for C3 (amended): the mutually dependent siblings `app.a` and
`app.b` are never loaded. -/
theorem claim_C3_amended_witness :
    "app.a" ∉ (load_components MMutual 5 [("app.a", []), ("app.b", [])]).loaded ∧
    "app.b" ∉ (load_components MMutual 5 [("app.a", []), ("app.b", [])]).loaded := by
  obtain ⟨he, ha, hb⟩ := claim_C3_mutual_dependency_amended MMutual 5
    [("app.a", []), ("app.b", [])] "app.a" "app.b"
    (by decide) (by decide) (by decide) (by decide) (by decide) (by decide)
  exact ⟨ha, hb⟩

/-- Counterexample for C9: the unit `app.a` declares itself in its depends
but also declares the missing `app.missing`; the existence check runs
before the self check, so the pass raises a not-existed error, not a
self-dependency error. -/
theorem claim_C9_counterexample :
    (load_components MSelfMiss 5 [("app.a", [])]).outcome =
      Outcome.err (.packageNotExisted "app.missing" "app.a") ∧
    Outcome.err (PackagingError.packageNotExisted "app.missing" "app.a") ≠
      Outcome.err (.selfDependency "app.a") := by
  refine ⟨rfl, by decide⟩

/-- Claim C9 (amended): a unit P whose own name appears in its declared
depends always makes the load pass fail with some error; P is never
appended to the loaded list and no module of P is ever loaded (provided no
other unit lists one of P's modules); and whenever all of P's declared
dependencies exist in `_all_packages`, validating P raises exactly the
self-dependency error. -/
theorem claim_C9_self_dependency_amended :
    ∀ (m : Manager) (fuel : Nat) (components : List (String × List String))
      (P : String) (mP : List String),
      (P, mP) ∈ components → P ∈ m.depsOf P → 1 ≤ fuel →
      (∀ q ∈ components, q.1 = P ∨ ∀ n ∈ mP, n ∉ q.2) →
      (∃ e, (load_components m fuel components).outcome = Outcome.err e) ∧
      P ∉ (load_components m fuel components).loaded ∧
      (∀ n ∈ mP, LoadEvent.loadModule n ∉ (load_components m fuel components).events) ∧
      ((∀ d ∈ m.depsOf P, d ∈ m.all_packages) →
        ∀ dmap, (validate_dependencies m dmap P (m.depsOf P)).2 =
          some (.selfDependency P)) := by
  intro m fuel comps P mP hPmem hself hfuel hdisj
  simp only [load_components]
  have hPkey : P ∈ comps.map Prod.fst := List.mem_map.mpr ⟨(P, mP), hPmem, rfl⟩
  have hprior := loadComponentsAux_allDepsPrior m fuel comps [] [] [] rfl
  have hnot := self_dep_never_loaded m hself hprior
  have hval : ∀ dmap, (validate_dependencies m dmap P (m.depsOf P)).2 ≠ none := by
    intro dmap hnone
    obtain ⟨e', he'⟩ := validate_self_dep_errors m dmap P hself
    rw [hnone] at he'
    exact absurd he' (by simp)
  obtain ⟨f, rfl⟩ : ∃ f, fuel = f + 1 := ⟨fuel - 1, by omega⟩
  have hs := sweep_self_dep_error m hself comps [] [] [] [] hPkey
  obtain ⟨e, he, hloaded, hevents⟩ := loadComponentsAux_err_of_sweep (f := f) hs
  refine ⟨⟨e, he⟩, hnot, ?_, ?_⟩
  · intro n hn
    rw [hevents]
    exact sweep_no_module_events m hval comps [] [] [] [] mP (by simp) hdisj n hn
  · intro hall dmap
    exact validate_self_dep_exact m dmap P hself hall

/-- Witness for C9 (amended): the purely self-dependent `app.a` is never
loaded and its module `app.a.x` never receives a load event. -/
theorem claim_C9_amended_witness :
    "app.a" ∉ (load_components MSelfOnly 5 [("app.a", ["app.a.x"])]).loaded ∧
    LoadEvent.loadModule "app.a.x" ∉
      (load_components MSelfOnly 5 [("app.a", ["app.a.x"])]).events := by
  obtain ⟨he, hl, hev, hv⟩ := claim_C9_self_dependency_amended MSelfOnly 5
    [("app.a", ["app.a.x"])] "app.a" ["app.a.x"]
    (by decide) (by decide) (by decide) (by decide)
  exact ⟨hl, hev "app.a.x" (by decide)⟩

theorem dmapConsistent_get (m : Manager) : ∀ (d : DMap), dmapConsistent m d = true →
    ∀ k val, assocGet d k = some val → val = m.depsOf k := by
  intro d
  induction d with
  | nil => intro _ k val h; exact absurd h (by simp [assocGet])
  | cons hd rest ih =>
    obtain ⟨a, b⟩ := hd
    intro hcons k val h
    rw [dmapConsistent, List.all_cons, Bool.and_eq_true] at hcons
    obtain ⟨hb, hrest⟩ := hcons
    unfold assocGet at h
    by_cases hak : a = k
    · rw [if_pos (by simp [hak])] at h
      have hbv : b = val := by injection h
      have hbd : b = m.depsOf a := by simpa using hb
      rw [← hbv, hbd, hak]
    · rw [if_neg (by simp [hak])] at h
      exact ih hrest k val h

theorem validate_dmap_shape {m : Manager} {dmap : DMap} {p : String}
    {deps : List String} {d1 : DMap} {oerr : Option PackagingError}
    (hv : validate_dependencies m dmap p deps = (d1, oerr)) :
    d1 = dmap ∨ d1 = assocSet dmap p deps := by
  unfold validate_dependencies at hv
  cases hc : check_dependencies_exist m p deps with
  | some e =>
    rw [hc] at hv
    exact Or.inl (congrArg Prod.fst hv).symm
  | none =>
    rw [hc] at hv
    simp only at hv
    right
    split at hv
    · exact (congrArg Prod.fst hv).symm
    · split at hv
      · exact (congrArg Prod.fst hv).symm
      · exact (congrArg Prod.fst hv).symm

theorem step_preserve {m : Manager} {dmap dmap1 : DMap} {p : String}
    {oerr : Option PackagingError}
    (hv : validate_dependencies m dmap p (m.depsOf p) = (dmap1, oerr))
    (hcons : ∀ k val, assocGet dmap k = some val → val = m.depsOf k) :
    (∀ k val, assocGet dmap1 k = some val → val = m.depsOf k) ∧
    (∀ k val, assocGet dmap k = some val → assocGet dmap1 k = some val) := by
  rcases validate_dmap_shape hv with h | h
  · subst h; exact ⟨hcons, fun k val h => h⟩
  · subst h
    constructor
    · intro k val hk
      rw [assocGet_assocSet] at hk
      by_cases hpk : p = k
      · rw [if_pos hpk] at hk
        have hdv : m.depsOf p = val := by injection hk
        rw [← hdv, hpk]
      · rw [if_neg hpk] at hk
        exact hcons k val hk
    · intro k val hk
      rw [assocGet_assocSet]
      by_cases hpk : p = k
      · rw [if_pos hpk, hpk, hcons k val hk]
      · rw [if_neg hpk]; exact hk

theorem sweep_dmap_stable (m : Manager) :
    ∀ (comps : List (String × List String)) (loaded : List String) (dmap : DMap)
      (events : List LoadEvent) (deferred : List (String × List String)),
      (∀ k val, assocGet dmap k = some val → val = m.depsOf k) →
      (∀ k val, assocGet (sweep m comps loaded dmap events deferred).dmap k = some val →
        val = m.depsOf k) ∧
      (∀ k val, assocGet dmap k = some val →
        assocGet (sweep m comps loaded dmap events deferred).dmap k = some val) := by
  intro comps
  induction comps with
  | nil =>
    intro loaded dmap events deferred hcons
    exact ⟨by simpa [sweep] using hcons, fun k val h => by simpa [sweep] using h⟩
  | cons hd tl ih =>
    obtain ⟨p, mods⟩ := hd
    intro loaded dmap events deferred hcons
    rw [sweep]
    cases hv : validate_dependencies m dmap p (m.depsOf p) with
    | mk dmap1 oerr =>
      obtain ⟨hc1, hp1⟩ := step_preserve hv hcons
      cases oerr with
      | some e =>
        exact ⟨by simpa using hc1, fun k val h => by simpa using hp1 k val h⟩
      | none =>
        simp only
        by_cases hguard : ((m.depsOf p).length == 0
            || is_dependencies_loaded loaded (m.depsOf p)) = true
        · rw [if_pos hguard]
          cases hp : is_parent_loaded loaded p with
          | error e =>
            exact ⟨by simpa using hc1, fun k val h => by simpa using hp1 k val h⟩
          | ok b =>
            cases b with
            | false =>
              obtain ⟨c2, p2⟩ := ih _ _ _ _ hc1
              exact ⟨c2, fun k val h => p2 k val (hp1 k val h)⟩
            | true =>
              cases hlc : load_component m loaded p mods
                  ((m.packages p).bind (fun c => c.COMPONENT_NAME)) with
              | error e =>
                exact ⟨by simpa using hc1, fun k val h => by simpa using hp1 k val h⟩
              | ok pr =>
                obtain ⟨loaded', evs⟩ := pr
                obtain ⟨c2, p2⟩ := ih _ _ _ _ hc1
                exact ⟨c2, fun k val h => p2 k val (hp1 k val h)⟩
        · rw [if_neg hguard]
          obtain ⟨c2, p2⟩ := ih _ _ _ _ hc1
          exact ⟨c2, fun k val h => p2 k val (hp1 k val h)⟩

theorem loadComponentsAux_dmap_stable (m : Manager) :
    ∀ (fuel : Nat) (comps : List (String × List String)) (loaded : List String)
      (dmap : DMap) (events : List LoadEvent),
      (∀ k val, assocGet dmap k = some val → val = m.depsOf k) →
      (∀ k val,
        assocGet (loadComponentsAux m fuel loaded dmap events comps).dmap k = some val →
          val = m.depsOf k) ∧
      (∀ k val, assocGet dmap k = some val →
        assocGet (loadComponentsAux m fuel loaded dmap events comps).dmap k = some val) := by
  intro fuel
  induction fuel with
  | zero =>
    intro comps loaded dmap events hcons
    exact ⟨by simpa [loadComponentsAux] using hcons,
      fun k val h => by simpa [loadComponentsAux] using h⟩
  | succ f ihf =>
    intro comps loaded dmap events hcons
    rw [loadComponentsAux]
    have hsw := sweep_dmap_stable m comps loaded dmap events [] hcons
    cases hs : sweep m comps loaded dmap events [] with
    | mk l' d' ev' df' oerr =>
      rw [hs] at hsw
      obtain ⟨c1, p1⟩ := hsw
      cases oerr with
      | some e => exact ⟨by simpa using c1, fun k val h => by simpa using p1 k val h⟩
      | none =>
        simp only
        by_cases hdef : df'.length > 0
        · rw [if_pos hdef]
          obtain ⟨c2, p2⟩ := ihf _ _ _ _ c1
          exact ⟨c2, fun k val h => p2 k val (p1 k val h)⟩
        · rw [if_neg hdef]
          exact ⟨by simpa using c1, fun k val h => by simpa using p1 k val h⟩

/-- Claim C8: within one load pass, once a dependency-map entry has been
written for a unit, every later operation of the pass — including the
re-validation of deferred units during subsequent sweeps, which rewrites
the entry with the same `DEPENDS` value — leaves that unit's entry
unchanged. Stated from an arbitrary intermediate state whose map entries
all carry their unit's derived dependency list (which is what every write
puts there), the rest of the pass preserves every existing entry exactly. -/
theorem claim_C8_dependency_map_entry_stable :
    ∀ (m : Manager) (fuel : Nat) (components : List (String × List String))
      (loaded : List String) (dmap : DMap) (events : List LoadEvent)
      (k : String) (val : List String),
      dmapConsistent m dmap = true →
      assocGet dmap k = some val →
      assocGet (loadComponentsAux m fuel loaded dmap events components).dmap k = some val := by
  intro m fuel comps loaded dmap events k val hcons hget
  exact (loadComponentsAux_dmap_stable m fuel comps loaded dmap events
    (dmapConsistent_get m dmap hcons)).2 k val hget

/-- Witness for C8: the pre-existing entry for `b` survives a pass over the
single package `a` unchanged. -/
theorem claim_C8_witness :
    dmapConsistent MSingle [("b", [])] = true ∧
    assocGet (loadComponentsAux MSingle 5 [] [("b", [])] [] [("a", [])]).dmap "b" =
      some [] :=
  ⟨by decide,
   claim_C8_dependency_map_entry_stable MSingle 5 [("a", [])] [] [("b", [])] [] "b" []
     (by decide) (by decide)⟩

end Balerin
